import Mathlib

/-!
Verification of the `sheet-calc` spreadsheet calculator (`src/lib.rs`,
`src/main.rs`).  The Rust code parses a delimited text table into
`SpreadSheet2D`, resolves columns by regex patterns, performs elementwise
arithmetic between two columns, appends the stringified result as a new
column, and serializes back to text.

Modelling conventions:
* Rust `String`/`&str` values are embedded as `List Char` (`Str`).
* `str::split(pat)` (exact, non-regex delimiter) is `splitOnStr`, faithful to
  Rust's leftmost, non-overlapping splitting for a non-empty delimiter.
  It is written with an explicit fuel argument (fuel = length of the input)
  so that it is structurally recursive and kernel-evaluable.
* `str::lines` is `rustLines`: split on `'\n'`, drop a final empty piece
  produced by a trailing newline, and strip one trailing `'\r'` per line.
* `f64` is idealized as `F64`: NaN, signed infinities, or an exact rational
  (`QF`, a normalized fraction with kernel-evaluable arithmetic).  IEEE
  rounding, signed zero and overflow are abstracted away; every concrete
  value appearing in the verified statements is one where double-precision
  arithmetic and its decimal printing agree exactly with this model.
* Functions that panic in Rust (`expect`, `panic!` on a malformed row) are
  embedded as `Except` values; the panic sites become the error constructors
  of `ParseError`.
* `column_op` takes `&mut self` and returns `Result<(), _>` in Rust; it is
  embedded as a state-passing function returning the `Result` together with
  the final state, so that an early `?`-return leaves the table unchanged.
-/

deriving instance DecidableEq for Except

namespace SheetCalc

/-- Rust strings are modelled as lists of characters. -/
abbrev Str := List Char

/-- Convenience: embed a Lean string literal as a `Str`. -/
def strL (s : String) : Str := s.data

/-! ## `str::split` with an exact (non-regex) delimiter

`splitOnStrAux d fuel s` splits `s` at every leftmost occurrence of the
non-empty delimiter `d`, as Rust's `str::split` does.  The fuel starts at
`s.length` and strictly exceeds the number of recursion steps, so the
`fuel = 0` fallback (returning the remaining input as a single piece) is
never reached; it is chosen so that rejoining the pieces is always the
identity. -/
def splitOnStrAux (d : Str) : Nat → Str → List Str
  | _, [] => [[]]
  | 0, s => [s]
  | fuel + 1, c :: rest =>
    if d ≠ [] ∧ d.isPrefixOf (c :: rest) = true then
      [] :: splitOnStrAux d fuel (List.drop (d.length - 1) rest)
    else
      match splitOnStrAux d fuel rest with
      | [] => [[c]]
      | p :: ps => (c :: p) :: ps

/-- Rust `s.split(d)` for a string delimiter `d` (used with `d ≠ []`;
the Rust empty-pattern edge case never arises in the claims). -/
def splitOnStr (d : Str) (s : Str) : List Str := splitOnStrAux d s.length s

/-- Rust `Vec::join(sep)`. -/
def joinSep (d : Str) : List Str → Str
  | [] => []
  | [x] => x
  | x :: y :: xs => x ++ d ++ joinSep d (y :: xs)

/-- Each line followed by one `'\n'`; the serializer's overall output shape. -/
def linesOut (ls : List Str) : Str := (ls.map (fun l => l ++ ['\n'])).flatten

/-- Strip one trailing carriage return, as Rust `str::lines` does per line. -/
def stripTrailingCR (l : Str) : Str :=
  if l.getLast? = some '\r' then l.dropLast else l

/-- Rust `str::lines`: split on `'\n'`, a trailing newline yields no final
empty line, and each line loses one trailing `'\r'`. -/
def rustLines (s : Str) : List Str :=
  List.map stripTrailingCR
    (if (splitOnStr ['\n'] s).getLast? = some [] then (splitOnStr ['\n'] s).dropLast
     else splitOnStr ['\n'] s)

/-! ### Basic facts about splitting and joining -/

theorem splitOnStrAux_ne_nil (d : Str) (fuel : Nat) (s : Str) :
    splitOnStrAux d fuel s ≠ [] := by
  induction fuel generalizing s with
  | zero => cases s <;> simp [splitOnStrAux]
  | succ n ih =>
    cases s with
    | nil => simp [splitOnStrAux]
    | cons c rest =>
      rw [splitOnStrAux]
      split
      · simp
      · cases h : splitOnStrAux d n rest with
        | nil => simp
        | cons p ps => simp

theorem splitOnStrAux_fuel_irrel (d : Str) (f₁ f₂ : Nat) (s : Str)
    (h₁ : s.length ≤ f₁) (h₂ : s.length ≤ f₂) :
    splitOnStrAux d f₁ s = splitOnStrAux d f₂ s := by
  induction f₁ generalizing f₂ s with
  | zero =>
    cases s with
    | nil => cases f₂ <;> simp [splitOnStrAux]
    | cons c rest => simp at h₁
  | succ n ih =>
    cases s with
    | nil => cases f₂ <;> simp [splitOnStrAux]
    | cons c rest =>
      cases f₂ with
      | zero => simp at h₂
      | succ m =>
        simp only [List.length_cons, Nat.add_le_add_iff_right] at h₁ h₂
        rw [splitOnStrAux, splitOnStrAux]
        have hdrop : (List.drop (d.length - 1) rest).length ≤ rest.length := by
          simp [List.length_drop]
        split
        · rw [ih m (List.drop (d.length - 1) rest) (le_trans hdrop h₁)
            (le_trans hdrop h₂)]
        · rw [ih m rest h₁ h₂]

theorem splitOnStr_nil (d : Str) : splitOnStr d [] = [[]] := rfl

theorem splitOnStr_cons_pos (d : Str) (c : Char) (rest : Str)
    (hd : d ≠ []) (hp : d.isPrefixOf (c :: rest) = true) :
    splitOnStr d (c :: rest) = [] :: splitOnStr d (List.drop (d.length - 1) rest) := by
  unfold splitOnStr
  rw [show (c :: rest).length = rest.length + 1 from rfl, splitOnStrAux]
  rw [if_pos ⟨hd, hp⟩]
  have hdrop : (List.drop (d.length - 1) rest).length ≤ rest.length := by
    simp [List.length_drop]
  rw [splitOnStrAux_fuel_irrel d rest.length (List.drop (d.length - 1) rest).length _
    hdrop le_rfl]

theorem splitOnStr_cons_neg (d : Str) (c : Char) (rest : Str)
    (h : ¬(d ≠ [] ∧ d.isPrefixOf (c :: rest) = true)) :
    splitOnStr d (c :: rest) =
      match splitOnStr d rest with
      | [] => [[c]]
      | p :: ps => (c :: p) :: ps := by
  unfold splitOnStr
  rw [show (c :: rest).length = rest.length + 1 from rfl, splitOnStrAux]
  rw [if_neg h]

theorem splitOnStr_ne_nil (d s : Str) : splitOnStr d s ≠ [] :=
  splitOnStrAux_ne_nil d s.length s

/-- A Boolean `isPrefixOf` certificate yields a list decomposition. -/
theorem isPrefixOf_exists {d l : Str} (h : d.isPrefixOf l = true) :
    ∃ t, l = d ++ t := by
  induction d generalizing l with
  | nil => exact ⟨l, rfl⟩
  | cons a as ih =>
    cases l with
    | nil => simp [List.isPrefixOf] at h
    | cons b bs =>
      simp only [List.isPrefixOf, Bool.and_eq_true, beq_iff_eq] at h
      obtain ⟨rfl, h2⟩ := h
      obtain ⟨t, rfl⟩ := ih h2
      exact ⟨t, rfl⟩

/-- Rejoining the pieces of a split with the same delimiter is the identity:
the parse-then-serialize direction of the round trip. -/
theorem joinSep_splitOnStr (d s : Str) : joinSep d (splitOnStr d s) = s := by
  unfold splitOnStr
  suffices h : ∀ fuel s, joinSep d (splitOnStrAux d fuel s) = s from h s.length s
  intro fuel
  induction fuel with
  | zero => intro s; cases s <;> simp [splitOnStrAux, joinSep]
  | succ n ih =>
    intro s
    cases s with
    | nil => simp [splitOnStrAux, joinSep]
    | cons c rest =>
      rw [splitOnStrAux]
      split
      · rename_i hcond
        obtain ⟨hd, hp⟩ := hcond
        obtain ⟨t, ht⟩ := isPrefixOf_exists hp
        have hdl : 1 ≤ d.length := by
          cases d with
          | nil => exact absurd rfl hd
          | cons _ _ => simp
        have hdrop : List.drop (d.length - 1) rest = t := by
          have h1 : List.drop d.length (c :: rest) = t := by
            rw [ht, List.drop_left]
          obtain ⟨k, hk⟩ := Nat.exists_eq_add_of_le hdl
          rw [hk] at h1 ⊢
          simpa [Nat.add_comm 1 k, List.drop_succ_cons] using h1
        rw [hdrop]
        cases hsp : splitOnStrAux d n t with
        | nil => exact absurd hsp (splitOnStrAux_ne_nil d n t)
        | cons p ps =>
          have hj : joinSep d (p :: ps) = t := by rw [← hsp]; exact ih t
          simp [joinSep, hj, ht]
      · cases hsp : splitOnStrAux d n rest with
        | nil => exact absurd hsp (splitOnStrAux_ne_nil d n rest)
        | cons p ps =>
          have hj : joinSep d (p :: ps) = rest := by rw [← hsp]; exact ih rest
          cases ps with
          | nil =>
            simp only [joinSep] at hj
            simp [joinSep, hj]
          | cons q qs =>
            simp only [joinSep] at hj ⊢
            simp [← hj]

theorem splitOnStr_single_no_occ {c : Char} {s : Str} (h : c ∉ s) :
    splitOnStr [c] s = [s] := by
  induction s with
  | nil => rfl
  | cons x rest ih =>
    have hx : x ≠ c := by
      intro hxc; exact h (by simp [hxc])
    have hrest : c ∉ rest := fun hc => h (by simp [hc])
    rw [splitOnStr_cons_neg]
    · rw [ih hrest]
    · intro hcond
      obtain ⟨-, hp⟩ := hcond
      simp only [List.isPrefixOf, Bool.and_eq_true, beq_iff_eq] at hp
      exact hx hp.1.symm

theorem splitOnStr_single_append {c : Char} {l : Str} (rest : Str) (h : c ∉ l) :
    splitOnStr [c] (l ++ c :: rest) = l :: splitOnStr [c] rest := by
  induction l with
  | nil =>
    rw [List.nil_append, splitOnStr_cons_pos [c] c rest (by simp) (by
      simp [List.isPrefixOf])]
    simp
  | cons x l' ih =>
    have hx : x ≠ c := by
      intro hxc; exact h (by simp [hxc])
    have hl' : c ∉ l' := fun hc => h (by simp [hc])
    rw [List.cons_append, splitOnStr_cons_neg]
    · rw [ih hl']
    · intro hcond
      obtain ⟨-, hp⟩ := hcond
      simp only [List.isPrefixOf, Bool.and_eq_true, beq_iff_eq] at hp
      exact hx hp.1.symm

theorem splitOnStr_join_single {c : Char} {ls : List Str} (hne : ls ≠ [])
    (h : ∀ l ∈ ls, c ∉ l) :
    splitOnStr [c] (joinSep [c] ls) = ls := by
  induction ls with
  | nil => exact absurd rfl hne
  | cons l ls' ih =>
    cases ls' with
    | nil =>
      simpa [joinSep] using splitOnStr_single_no_occ (h l (by simp))
    | cons m ms =>
      have hstep : joinSep [c] (l :: m :: ms) = l ++ c :: joinSep [c] (m :: ms) := by
        simp [joinSep]
      rw [hstep, splitOnStr_single_append _ (h l (by simp))]
      rw [ih (by simp) (fun x hx => h x (by simp [hx]))]

theorem joinSep_cons_cons (d x y : Str) (xs : List Str) :
    joinSep d (x :: y :: xs) = x ++ d ++ joinSep d (y :: xs) := rfl

theorem linesOut_nil : linesOut [] = [] := rfl

theorem linesOut_cons (l : Str) (ls : List Str) :
    linesOut (l :: ls) = l ++ '\n' :: linesOut ls := by
  simp [linesOut]

theorem linesOut_append (a b : List Str) :
    linesOut (a ++ b) = linesOut a ++ linesOut b := by
  simp [linesOut]

theorem linesOut_eq_joinSep {ls : List Str} (h : ls ≠ []) :
    linesOut ls = joinSep ['\n'] ls ++ ['\n'] := by
  induction ls with
  | nil => exact absurd rfl h
  | cons l ls' ih =>
    cases ls' with
    | nil => simp [linesOut, joinSep]
    | cons m ms =>
      rw [linesOut_cons, ih (by simp)]
      simp [joinSep]

/-- The parser's line splitting is a left inverse of the serializer's line
layout: re-reading lines that each end in `'\n'` recovers exactly those
lines, provided no line contains an interior newline or ends in `'\r'`. -/
theorem rustLines_linesOut {ls : List Str}
    (h : ∀ l ∈ ls, '\n' ∉ l ∧ l.getLast? ≠ some '\r') :
    rustLines (linesOut ls) = ls := by
  cases hls : ls with
  | nil => rfl
  | cons l₀ ls₀ =>
    subst hls
    have hjoin : linesOut (l₀ :: ls₀) = joinSep ['\n'] ((l₀ :: ls₀) ++ [[]]) := by
      rw [linesOut_eq_joinSep (by simp)]
      have : ∀ xs : List Str, xs ≠ [] → joinSep ['\n'] (xs ++ [[]]) =
          joinSep ['\n'] xs ++ ['\n'] := by
        intro xs hxs
        induction xs with
        | nil => exact absurd rfl hxs
        | cons a as ihx =>
          cases as with
          | nil => simp [joinSep]
          | cons b bs =>
            rw [List.cons_append, List.cons_append, joinSep_cons_cons,
              ← List.cons_append, ihx (by simp), joinSep_cons_cons]
            simp [List.append_assoc]
      exact (this _ (by simp)).symm
    unfold rustLines
    rw [hjoin, splitOnStr_join_single (by simp)
      (by
        intro x hx
        rcases List.mem_append.mp hx with hx | hx
        · exact (h x hx).1
        · simp at hx; simp [hx])]
    have hlast : ((l₀ :: ls₀) ++ [[]]).getLast? = some ([] : Str) :=
      List.getLast?_concat _
    rw [if_pos hlast]
    rw [show ((l₀ :: ls₀) ++ [[]] : List Str).dropLast = l₀ :: ls₀ from
      List.dropLast_concat]
    have : ∀ x ∈ l₀ :: ls₀, stripTrailingCR x = x := by
      intro x hx
      unfold stripTrailingCR
      rw [if_neg (h x hx).2]
    calc (l₀ :: ls₀).map stripTrailingCR = (l₀ :: ls₀).map id :=
          List.map_congr_left this
      _ = l₀ :: ls₀ := List.map_id _

/-! ## Exact rational numbers with kernel-evaluable arithmetic

`QF` is a normalized fraction `num / den` (with `den > 0` for every value
built by `qmk`).  A fuel-based Euclid (`gcdF`, proved equal to `Nat.gcd`)
keeps all operations structurally recursive, so concrete spreadsheets can be
evaluated inside `decide`. -/

def gcdFuel : Nat → Nat → Nat → Nat
  | 0, _, n => n
  | _ + 1, 0, n => n
  | fuel + 1, m + 1, n => gcdFuel fuel (n % (m + 1)) (m + 1)

def gcdF (m n : Nat) : Nat := gcdFuel (m + 1) m n

theorem gcdFuel_eq_gcd : ∀ fuel m n, m < fuel → gcdFuel fuel m n = Nat.gcd m n := by
  intro fuel
  induction fuel with
  | zero => intro m n h; omega
  | succ f ih =>
    intro m n h
    cases m with
    | zero => simp [gcdFuel]
    | succ k =>
      rw [gcdFuel, ih _ _ (lt_of_lt_of_le (Nat.mod_lt _ (Nat.succ_pos k)) (by omega))]
      exact (Nat.gcd_succ k n).symm

theorem gcdF_eq_gcd (m n : Nat) : gcdF m n = Nat.gcd m n :=
  gcdFuel_eq_gcd _ _ _ (Nat.lt_succ_self m)

/-- A rational number as a normalized signed fraction. -/
structure QF where
  num : Int
  den : Nat
deriving DecidableEq

/-- Build a normalized fraction (the denominator is given as a `Nat`). -/
def qmk (n : Int) (d : Nat) : QF :=
  if d = 0 then ⟨0, 1⟩
  else
    let g := gcdF n.natAbs d
    ⟨n / (g : Int), d / g⟩

/-- Embed an integer. -/
def qof (n : Int) : QF := ⟨n, 1⟩

def qadd (a b : QF) : QF :=
  qmk (a.num * (b.den : Int) + b.num * (a.den : Int)) (a.den * b.den)

def qsub (a b : QF) : QF :=
  qmk (a.num * (b.den : Int) - b.num * (a.den : Int)) (a.den * b.den)

def qmul (a b : QF) : QF := qmk (a.num * b.num) (a.den * b.den)

/-- Division (callers guarantee `b` is nonzero). -/
def qdiv (a b : QF) : QF :=
  if b.num < 0 then qmk (-(a.num * (b.den : Int))) (a.den * b.num.natAbs)
  else qmk (a.num * (b.den : Int)) (a.den * b.num.natAbs)

/-! ## The `f64` idealization

`F64` abstracts IEEE double precision as NaN, two infinities, or an exact
rational.  Rounding, signed zero, subnormals and overflow are not modelled;
every concrete number in the verified claims is exactly representable and
prints identically under both semantics.  NaN and infinity propagation
follow the IEEE rules used by Rust's `f64` operators. -/

inductive F64 where
  | nan
  | posInf
  | negInf
  | val (q : QF)
deriving DecidableEq

/-- IEEE-style addition. -/
def fAdd : F64 → F64 → F64
  | .nan, _ => .nan
  | _, .nan => .nan
  | .posInf, .negInf => .nan
  | .negInf, .posInf => .nan
  | .posInf, _ => .posInf
  | _, .posInf => .posInf
  | .negInf, _ => .negInf
  | _, .negInf => .negInf
  | .val a, .val b => .val (qadd a b)

/-- IEEE-style subtraction. -/
def fSub : F64 → F64 → F64
  | .nan, _ => .nan
  | _, .nan => .nan
  | .posInf, .posInf => .nan
  | .negInf, .negInf => .nan
  | .posInf, _ => .posInf
  | .negInf, _ => .negInf
  | _, .posInf => .negInf
  | _, .negInf => .posInf
  | .val a, .val b => .val (qsub a b)

/-- IEEE-style multiplication. -/
def fMul : F64 → F64 → F64
  | .nan, _ => .nan
  | _, .nan => .nan
  | .posInf, .posInf => .posInf
  | .posInf, .negInf => .negInf
  | .negInf, .posInf => .negInf
  | .negInf, .negInf => .posInf
  | .posInf, .val b => if 0 < b.num then .posInf else if b.num < 0 then .negInf else .nan
  | .val a, .posInf => if 0 < a.num then .posInf else if a.num < 0 then .negInf else .nan
  | .negInf, .val b => if 0 < b.num then .negInf else if b.num < 0 then .posInf else .nan
  | .val a, .negInf => if 0 < a.num then .negInf else if a.num < 0 then .posInf else .nan
  | .val a, .val b => .val (qmul a b)

/-- IEEE-style division (zero is unsigned in this idealization). -/
def fDiv : F64 → F64 → F64
  | .nan, _ => .nan
  | _, .nan => .nan
  | .posInf, .posInf => .nan
  | .posInf, .negInf => .nan
  | .negInf, .posInf => .nan
  | .negInf, .negInf => .nan
  | .posInf, .val b => if b.num < 0 then .negInf else .posInf
  | .negInf, .val b => if b.num < 0 then .posInf else .negInf
  | .val _, .posInf => .val (qof 0)
  | .val _, .negInf => .val (qof 0)
  | .val a, .val b =>
    if b.num = 0 then
      if a.num = 0 then .nan else if 0 < a.num then .posInf else .negInf
    else .val (qdiv a b)

/-! ## Rust `str::parse::<f64>` and `f64`'s `Display`

The grammar follows the documented `FromStr` grammar for `f64`:
an optional sign, then `inf`, `infinity`, `nan` (case-insensitively) or a
decimal number `Digit+ | Digit+ '.' Digit* | Digit* '.' Digit+` with an
optional `e`/`E` exponent.  The numeric value is kept exact instead of
being rounded to the nearest double. -/

def isDigitC (c : Char) : Bool := decide ('0' ≤ c ∧ c ≤ '9')

def digitsVal (ds : Str) : Nat := ds.foldl (fun acc c => 10 * acc + (c.toNat - 48)) 0

def toLowerStr (s : Str) : Str := s.map Char.toLower

/-- The exact value of a parsed decimal: sign, integer digits, fraction
digits, decimal exponent. -/
def decToQF (sign : Int) (ip fp : Str) (e : Int) : QF :=
  let m : Int := (digitsVal (ip ++ fp) : Nat)
  let e2 : Int := e - (fp.length : Int)
  if 0 ≤ e2 then qmk (sign * m * (10 : Int) ^ e2.toNat) 1
  else qmk (sign * m) (10 ^ (-e2).toNat)

def parseExpDigits (sign : Int) (s : Str) : Option Int :=
  if s ≠ [] ∧ s.all isDigitC = true then some (sign * (digitsVal s : Nat)) else none

def parseExp : Str → Option Int
  | [] => some 0
  | c :: r =>
    if c = 'e' ∨ c = 'E' then
      match r with
      | '+' :: r2 => parseExpDigits 1 r2
      | '-' :: r2 => parseExpDigits (-1) r2
      | r2 => parseExpDigits 1 r2
    else none

def parseF64Unsigned (sign : Int) (s : Str) : Option F64 :=
  if toLowerStr s = strL "inf" ∨ toLowerStr s = strL "infinity" then
    some (if sign = 1 then F64.posInf else F64.negInf)
  else if toLowerStr s = strL "nan" then some F64.nan
  else
    let ip := s.takeWhile isDigitC
    let r1 := s.dropWhile isDigitC
    match r1 with
    | '.' :: r2 =>
      let fp := r2.takeWhile isDigitC
      let r3 := r2.dropWhile isDigitC
      if ip = [] ∧ fp = [] then none
      else (parseExp r3).map (fun e => F64.val (decToQF sign ip fp e))
    | _ =>
      if ip = [] then none
      else (parseExp r1).map (fun e => F64.val (decToQF sign ip [] e))

/-- Rust `s.parse::<f64>()`. -/
def parseF64 (s : Str) : Option F64 :=
  match s with
  | '+' :: r => parseF64Unsigned 1 r
  | '-' :: r => parseF64Unsigned (-1) r
  | r => parseF64Unsigned 1 r

/-- Numeric coercion used throughout the code:
`cell.parse::<f64>().unwrap_or(f64::NAN)` (inlined at each use site in the
source). -/
def to_number (cell : Str) : F64 := (parseF64 cell).getD F64.nan

def natDigits (n : Nat) : Str := Nat.toDigits 10 n

/-- Decimal expansion of a proper fraction `num / den`, one digit per fuel
step (64 digits are ample for every value arising here; Rust prints at most
17 significant digits for a shortest-round-trip `f64`). -/
def fracDigitsAux : Nat → Nat → Nat → Str
  | _, 0, _ => []
  | 0, _, _ => []
  | fuel + 1, den, num =>
    if num = 0 then []
    else Nat.digitChar (num * 10 / den) :: fracDigitsAux fuel den (num * 10 % den)

/-- Rust `f64`'s `Display` (`x.to_string()`): `NaN`, `inf`, `-inf`, or a
plain (non-scientific) decimal with no trailing fractional zeros.  On every
value arising in the claims this agrees with Rust's shortest-round-trip
formatting. -/
def f64ToString : F64 → Str
  | .nan => strL "NaN"
  | .posInf => strL "inf"
  | .negInf => strL "-inf"
  | .val q =>
    (if q.num < 0 then ['-'] else []) ++ natDigits (q.num.natAbs / q.den) ++
      (if q.num.natAbs % q.den = 0 then []
       else '.' :: fracDigitsAux 64 q.den (q.num.natAbs % q.den))

/-! ## Model of the `regex` crate

The source delegates pattern compilation and matching to the third-party
`regex` crate (`Regex::new`, `Regex::is_match`), whose code is not part of
this repository.  It is modelled here by a core-subset engine: literals,
`.` (not matching `'\n'`), character classes with ranges and negation,
escapes, grouping, alternation and the `*`/`+`/`?` repetitions.  Anchors
and counted repetitions are outside the modelled subset.  `reCompile`
returning `none` models `Regex::new` returning an error, and `reSearch` is
unanchored search exactly as `Regex::is_match`: the pattern may match any
substring.  Matching is by Brzozowski derivatives. -/

inductive RE where
  | eps
  | reFail
  | char (c : Char)
  | anyChar
  | cls (neg : Bool) (items : List (Char × Char))
  | alt (a b : RE)
  | seq (a b : RE)
  | star (a : RE)
deriving DecidableEq

def nullable : RE → Bool
  | .eps => true
  | .reFail => false
  | .char _ => false
  | .anyChar => false
  | .cls _ _ => false
  | .alt a b => nullable a || nullable b
  | .seq a b => nullable a && nullable b
  | .star _ => true

def clsMatches (neg : Bool) (items : List (Char × Char)) (c : Char) : Bool :=
  if items.any (fun p => decide (p.1 ≤ c ∧ c ≤ p.2)) then !neg else neg

/-- Brzozowski derivative with respect to one character. -/
def derivRE (c : Char) : RE → RE
  | .eps => .reFail
  | .reFail => .reFail
  | .char d => if c = d then .eps else .reFail
  | .anyChar => if c = '\n' then .reFail else .eps
  | .cls neg items => if clsMatches neg items c then .eps else .reFail
  | .alt a b => .alt (derivRE c a) (derivRE c b)
  | .seq a b =>
    if nullable a then .alt (.seq (derivRE c a) b) (derivRE c b)
    else .seq (derivRE c a) b
  | .star a => .seq (derivRE c a) (.star a)

/-- Does the pattern match the whole string? -/
def matchFull (r : RE) (s : Str) : Bool :=
  nullable (s.foldl (fun a c => derivRE c a) r)

/-- Does the pattern match some prefix of the string? -/
def matchHere : RE → Str → Bool
  | r, [] => nullable r
  | r, c :: rest => nullable r || matchHere (derivRE c r) rest

/-- Unanchored search, as `Regex::is_match`: the pattern may match starting
at any position. -/
def reSearch (r : RE) : Str → Bool
  | [] => nullable r
  | c :: rest => matchHere r (c :: rest) || reSearch r rest

def escapeRE (c : Char) : Option RE :=
  if c ∈ ['\\', '.', '*', '+', '?', '(', ')', '[', ']', '|', '^', '$', '-', '/'] then
    some (RE.char c)
  else if c = 'd' then some (RE.cls false [('0', '9')])
  else if c = 'w' then
    some (RE.cls false [('a', 'z'), ('A', 'Z'), ('0', '9'), ('_', '_')])
  else if c = 's' then
    some (RE.cls false [(' ', ' '), ('\t', '\t'), ('\n', '\n'), ('\r', '\r')])
  else if c = 'n' then some (RE.char '\n')
  else if c = 't' then some (RE.char '\t')
  else if c = 'r' then some (RE.char '\r')
  else none

def parseClassItems : Str → List (Char × Char) → Bool → Option (RE × Str)
  | [], _, _ => none
  | ']' :: rest, acc, neg =>
    if acc.isEmpty then none else some (RE.cls neg acc.reverse, rest)
  | a :: '-' :: ']' :: rest2, acc, neg =>
    some (RE.cls neg ((('-', '-') :: (a, a) :: acc).reverse), rest2)
  | a :: '-' :: b :: rest2, acc, neg => parseClassItems rest2 ((a, b) :: acc) neg
  | a :: rest, acc, neg => parseClassItems rest ((a, a) :: acc) neg

def parseClass (s : Str) : Option (RE × Str) :=
  match s with
  | '^' :: r => parseClassItems r [] true
  | r => parseClassItems r [] false

def repHead : Str → Bool
  | c :: _ => c = '*' ∨ c = '+' ∨ c = '?'
  | [] => false

/-- Apply at most one repetition operator (a second one in a row is an
error, as in the `regex` crate). -/
def applyReps (a : RE) : Str → Option (RE × Str)
  | '*' :: r => if repHead r then none else some (RE.star a, r)
  | '+' :: r => if repHead r then none else some (RE.seq a (RE.star a), r)
  | '?' :: r => if repHead r then none else some (RE.alt a RE.eps, r)
  | s => some (a, s)

/-- Precedence levels of the recursive-descent pattern grammar. -/
inductive PLevel where
  | alt
  | sq
  | atom

/-- Fuel-based recursive-descent parser for the modelled pattern subset. -/
def parseRE : Nat → PLevel → Str → Option (RE × Str)
  | 0, _, _ => none
  | fuel + 1, PLevel.alt, s =>
    match parseRE fuel PLevel.sq s with
    | none => none
    | some (a, r) =>
      match r with
      | '|' :: r2 =>
        match parseRE fuel PLevel.alt r2 with
        | none => none
        | some (b, r3) => some (RE.alt a b, r3)
      | _ => some (a, r)
  | fuel + 1, PLevel.sq, s =>
    match s with
    | [] => some (RE.eps, [])
    | c :: _ =>
      if c = '|' ∨ c = ')' then some (RE.eps, s)
      else
        match parseRE fuel PLevel.atom s with
        | none => none
        | some (a, r) =>
          match applyReps a r with
          | none => none
          | some (a2, r2) =>
            match parseRE fuel PLevel.sq r2 with
            | none => none
            | some (b, r3) => some (RE.seq a2 b, r3)
  | fuel + 1, PLevel.atom, s =>
    match s with
    | [] => none
    | '(' :: r =>
      match parseRE fuel PLevel.alt r with
      | none => none
      | some (a, r2) =>
        match r2 with
        | ')' :: r3 => some (a, r3)
        | _ => none
    | '[' :: r => parseClass r
    | '\\' :: c :: r => (escapeRE c).map (fun e => (e, r))
    | '.' :: r => some (RE.anyChar, r)
    | c :: r =>
      if c = '*' ∨ c = '+' ∨ c = '?' ∨ c = '|' ∨ c = ')' ∨ c = '^' ∨ c = '$' ∨ c = '\\'
      then none
      else some (RE.char c, r)

/-- `Regex::new`: `none` models a pattern-compilation error. -/
def reCompile (pattern : Str) : Option RE :=
  match parseRE (8 * (pattern.length + 1)) PLevel.alt pattern with
  | some (re, []) => some re
  | _ => none

/-! ### Search really is substring matching -/

theorem matchHere_of_matchFull {r : RE} {mid : Str} (suf : Str)
    (h : matchFull r mid = true) : matchHere r (mid ++ suf) = true := by
  induction mid generalizing r with
  | nil =>
    cases suf with
    | nil => exact h
    | cons c rest => simp [matchHere, matchFull] at h ⊢; exact Or.inl h
  | cons c rest ih =>
    have h' : matchFull (derivRE c r) rest = true := h
    show (nullable r || matchHere (derivRE c r) (rest ++ suf)) = true
    rw [ih h']
    simp

theorem reSearch_append_left {r : RE} (pre : Str) {x : Str}
    (h : reSearch r x = true) : reSearch r (pre ++ x) = true := by
  induction pre with
  | nil => exact h
  | cons c rest ih =>
    show (matchHere r (c :: (rest ++ x)) || reSearch r (rest ++ x)) = true
    rw [ih]
    simp

/-- A full match of any substring makes the unanchored search succeed:
regex *search* semantics, where a partial match anywhere counts. -/
theorem reSearch_substring {r : RE} (pre mid suf : Str)
    (h : matchFull r mid = true) : reSearch r (pre ++ mid ++ suf) = true := by
  have h1 : matchHere r (mid ++ suf) = true := matchHere_of_matchFull suf h
  have h2 : reSearch r (mid ++ suf) = true := by
    cases hm : mid ++ suf with
    | nil => rw [hm] at h1; simpa [reSearch, matchHere] using h1
    | cons c rest => rw [hm] at h1; simp [reSearch, h1]
  have := reSearch_append_left pre h2
  simpa [List.append_assoc] using this

/-! ## The data model: `SpreadSheet2D`

`data` is the `ndarray::Array2<String>` of the source, modelled as the list
of its rows (the source builds it row-major from a flat vector whose length
is `n_rows * n_columns`, which under the per-row width check is exactly the
row list).  Field names follow the source, including its spelling of
`col_delimeter`. -/

structure SpreadSheet2D where
  preamble : List Str
  col_delimeter : Str
  data : List (List Str)
  column_headers : List Str
deriving DecidableEq

/-- The two panic sites of `SpreadSheet2D::from_string`, embedded as
recoverable errors: `expect("unexpected end of rows!")` when no header line
exists, and the row-width `panic!` reporting the expected and the actual
field count of the offending row. -/
inductive ParseError where
  | malformedInput
  | rowWidthMismatch (expected actual : Nat)
deriving DecidableEq

/-- The per-row reading loop of `from_string`: split each line on the
delimiter, and abort at the first row whose field count differs from the
header's column count. -/
def readRows (d : Str) (n_columns : Nat) : List Str → Except ParseError (List (List Str))
  | [] => .ok []
  | row :: rest =>
    if (splitOnStr d row).length = n_columns then
      match readRows d n_columns rest with
      | .ok rs => .ok (splitOnStr d row :: rs)
      | .error e => .error e
    else .error (.rowWidthMismatch n_columns (splitOnStr d row).length)

/-- `SpreadSheet2D::from_string(s, col_delimeter, line_offset)`: take up to
`line_offset` lines as the preamble, split the next line into the headers
(panicking — here erroring — if none exists), then read the data rows with
a per-row width check. -/
def SpreadSheet2D.from_string (s : Str) (col_delimeter : Str) (line_offset : Nat) :
    Except ParseError SpreadSheet2D :=
  match (rustLines s).drop line_offset with
  | [] => .error .malformedInput
  | headerLine :: dataLines =>
    match readRows col_delimeter (splitOnStr col_delimeter headerLine).length dataLines with
    | .error e => .error e
    | .ok data =>
      .ok (SpreadSheet2D.mk ((rustLines s).take line_offset) col_delimeter data
        (splitOnStr col_delimeter headerLine))

/-- The `ToString` impl: preamble lines joined by `'\n'` (plus a `'\n'` when
the preamble is non-empty), then the headers joined by the delimiter and a
`'\n'`, then each data row joined by the delimiter and followed by a
`'\n'`. -/
def SpreadSheet2D.toString (sh : SpreadSheet2D) : Str :=
  (if sh.preamble.isEmpty then joinSep ['\n'] sh.preamble
   else joinSep ['\n'] sh.preamble ++ ['\n']) ++
  (joinSep sh.col_delimeter sh.column_headers ++ ['\n']) ++
  (sh.data.map (fun row => joinSep sh.col_delimeter row ++ ['\n'])).flatten

/-- `SpreadSheet2D::columns_numeric`: every column as parsed `f64`s, with
NaN for unparsable cells. -/
def SpreadSheet2D.columns_numeric (sh : SpreadSheet2D) : List (List F64) :=
  sh.data.transpose.map (fun col => col.map to_number)

/-- The error values produced by `column_index`, `do_operation` and
`column_op` (boxed error strings in the source, one constructor per `Err`
site). -/
inductive CalcError where
  | invalidPattern (pattern : Str)
  | columnNotFound (pattern : Str)
  | ambiguousColumn (pattern : Str) (found : List (Nat × Str))
  | unsupportedOperator (op : Str)
deriving DecidableEq

/-- `column_index(column_header, pattern)`: compile the pattern, collect all
`(index, header)` pairs whose header the regex search matches, and demand
exactly one. -/
def column_index (column_header : List Str) (pattern : Str) : Except CalcError Nat :=
  match reCompile pattern with
  | none => .error (.invalidPattern pattern)
  | some re =>
    match column_header.enum.filter (fun p => reSearch re p.2) with
    | [] => .error (.columnNotFound pattern)
    | [m] => .ok m.1
    | m :: m2 :: ms => .error (.ambiguousColumn pattern (m :: m2 :: ms))

/-- `SpreadSheet2D::do_operation`: elementwise arithmetic on two columns,
or an `unknown operation` error for any other symbol. -/
def do_operation (col1 col2 : List F64) (operation : Str) : Except CalcError (List F64) :=
  if operation = strL "*" then .ok (List.zipWith fMul col1 col2)
  else if operation = strL "/" then .ok (List.zipWith fDiv col1 col2)
  else if operation = strL "-" then .ok (List.zipWith fSub col1 col2)
  else if operation = strL "+" then .ok (List.zipWith fAdd col1 col2)
  else .error (.unsupportedOperator operation)

/-- `SpreadSheet2D::column_op(&mut self, col1, operation, col2, new_col_name)`.
The Rust method mutates `self` behind `&mut`; the embedding returns the
`Result` paired with the final table state, so that each early `?` return
leaves the table exactly as it was.  On success the parsed operand columns
are combined elementwise, stringified, appended cell-by-cell to the rows,
and the new header name is pushed. -/
def SpreadSheet2D.column_op (sh : SpreadSheet2D) (col1 operation col2 new_col_name : Str) :
    Except CalcError Unit × SpreadSheet2D :=
  match column_index sh.column_headers col1 with
  | .error e => (.error e, sh)
  | .ok idx1 =>
    match column_index sh.column_headers col2 with
    | .error e => (.error e, sh)
    | .ok idx2 =>
      match do_operation (sh.data.map (fun row => to_number (row.getD idx1 [])))
          (sh.data.map (fun row => to_number (row.getD idx2 []))) operation with
      | .error e => (.error e, sh)
      | .ok new_col =>
        (.ok (),
          SpreadSheet2D.mk sh.preamble sh.col_delimeter
            (List.zipWith (fun row cell => row ++ [cell]) sh.data
              (new_col.map f64ToString))
            (sh.column_headers ++ [new_col_name]))

/-- The four supported operator symbols with their `F64` meanings, in the
order the source's `match` tests them. -/
def opTable : List (Str × (F64 → F64 → F64)) :=
  [(strL "*", fMul), (strL "/", fDiv), (strL "-", fSub), (strL "+", fAdd)]

/-! ## Supporting lemmas about the parser and serializer -/

theorem readRows_ok_of_widths {d : Str} {C : Nat} {ls : List Str}
    (h : ∀ l ∈ ls, (splitOnStr d l).length = C) :
    readRows d C ls = .ok (ls.map (splitOnStr d)) := by
  induction ls with
  | nil => rfl
  | cons l rest ih =>
    rw [readRows, if_pos (h l (by simp)), ih (fun x hx => h x (by simp [hx]))]
    rfl

theorem readRows_ok_iff {d : Str} {C : Nat} {ls : List Str} {rs : List (List Str)} :
    readRows d C ls = .ok rs ↔
      rs = ls.map (splitOnStr d) ∧ ∀ l ∈ ls, (splitOnStr d l).length = C := by
  constructor
  · intro h
    induction ls generalizing rs with
    | nil =>
      simp only [readRows] at h
      cases h
      exact ⟨rfl, by simp⟩
    | cons l rest ih =>
      rw [readRows] at h
      by_cases hw : (splitOnStr d l).length = C
      · rw [if_pos hw] at h
        cases hrec : readRows d C rest with
        | ok rs' =>
          rw [hrec] at h
          cases h
          obtain ⟨h1, h2⟩ := ih hrec
          refine ⟨by rw [h1]; rfl, ?_⟩
          intro x hx
          rcases List.mem_cons.mp hx with rfl | hx2
          · exact hw
          · exact h2 x hx2
        | error e => rw [hrec] at h; cases h
      · rw [if_neg hw] at h; cases h
  · intro ⟨h1, h2⟩
    rw [readRows_ok_of_widths h2, h1]

theorem readRows_first_bad {d : Str} {C : Nat} {pre post : List Str} {l : Str}
    (hpre : ∀ l' ∈ pre, (splitOnStr d l').length = C)
    (hl : (splitOnStr d l).length ≠ C) :
    readRows d C (pre ++ l :: post) =
      .error (.rowWidthMismatch C (splitOnStr d l).length) := by
  induction pre with
  | nil => rw [List.nil_append, readRows, if_neg hl]
  | cons p ps ih =>
    rw [List.cons_append, readRows, if_pos (hpre p (by simp)),
      ih (fun x hx => hpre x (by simp [hx]))]

/-- Computing `from_string` on a text with known lines: the preamble is
recovered by `take`, the header and data lines by `drop`, and the result is
decided by the row-reading loop. -/
theorem from_string_structured (d text : Str) (preLines dataLines : List Str)
    (headerLine : Str)
    (hlines : rustLines text = preLines ++ headerLine :: dataLines) :
    SpreadSheet2D.from_string text d preLines.length =
      match readRows d (splitOnStr d headerLine).length dataLines with
      | .ok data =>
        .ok (SpreadSheet2D.mk preLines d data (splitOnStr d headerLine))
      | .error e => .error e := by
  cases h : readRows d (splitOnStr d headerLine).length dataLines with
  | ok data =>
    simp only [SpreadSheet2D.from_string, hlines, List.drop_left, List.take_left, h]
  | error e =>
    simp only [SpreadSheet2D.from_string, hlines, List.drop_left, List.take_left, h]

/-- Serializing a table whose rows are the splits of the given data lines
re-emits every line, each terminated by a newline. -/
theorem toString_structured (d : Str) (preLines dataLines : List Str)
    (headerLine : Str) :
    (SpreadSheet2D.mk preLines d (dataLines.map (splitOnStr d))
        (splitOnStr d headerLine)).toString =
      linesOut (preLines ++ headerLine :: dataLines) := by
  unfold SpreadSheet2D.toString
  have hpre : (if preLines.isEmpty then joinSep ['\n'] preLines
      else joinSep ['\n'] preLines ++ ['\n']) = linesOut preLines := by
    cases preLines with
    | nil => rfl
    | cons p ps =>
      rw [if_neg (by simp), linesOut_eq_joinSep (by simp)]
  have hrows : ((dataLines.map (splitOnStr d)).map
        (fun row => joinSep d row ++ ['\n'])).flatten = linesOut dataLines := by
    rw [List.map_map]
    unfold linesOut
    congr 1
    apply List.map_congr_left
    intro l hl
    simp [Function.comp, joinSep_splitOnStr]
  simp only [hpre, hrows, joinSep_splitOnStr]
  rw [linesOut_append, linesOut_cons]
  simp [List.append_assoc]

/-- Lines joined by `'\n'` but with no trailing newline are also recovered
verbatim by `str::lines`, provided the final line is non-empty. -/
theorem rustLines_joinSep {ls : List Str} (hne : ls ≠ [])
    (h : ∀ l ∈ ls, '\n' ∉ l ∧ l.getLast? ≠ some '\r')
    (hlast : ls.getLast? ≠ some []) :
    rustLines (joinSep ['\n'] ls) = ls := by
  unfold rustLines
  rw [splitOnStr_join_single hne (fun l hl => (h l hl).1), if_neg hlast]
  calc ls.map stripTrailingCR = ls.map id := List.map_congr_left (fun x hx => by
        unfold stripTrailingCR; rw [if_neg (h x hx).2]; rfl)
    _ = ls := List.map_id _

theorem getD_map {α β : Type} (f : α → β) (l : List α) (i : Nat) (da : α)
    (hi : i < l.length) : (l.map f).getD i (f da) = f (l.getD i da) := by
  induction l generalizing i with
  | nil => simp at hi
  | cons x xs ih =>
    cases i with
    | zero => rfl
    | succ j =>
      simp only [List.length_cons, Nat.add_lt_add_iff_right] at hi
      exact ih j hi

theorem getD_zipWith {α β γ : Type} (f : α → β → γ) (as : List α) (bs : List β)
    (i : Nat) (da : α) (db : β) (dc : γ) (ha : i < as.length) (hb : i < bs.length) :
    (List.zipWith f as bs).getD i dc = f (as.getD i da) (bs.getD i db) := by
  induction as generalizing bs i with
  | nil => simp at ha
  | cons a as' ih =>
    cases bs with
    | nil => simp at hb
    | cons b bs' =>
      cases i with
      | zero => rfl
      | succ j =>
        simp only [List.length_cons, Nat.add_lt_add_iff_right] at ha hb
        exact ih bs' j ha hb

theorem zipWith_length_of_eq {α β γ : Type} (f : α → β → γ) (as : List α)
    (bs : List β) (h : as.length = bs.length) :
    (List.zipWith f as bs).length = as.length := by
  simp [List.length_zipWith, h]

/-- The source's `match` on the operator, one case per supported symbol. -/
theorem do_operation_eq_of_mem {op : Str} {fop : F64 → F64 → F64}
    (h : (op, fop) ∈ opTable) (l r : List F64) :
    do_operation l r op = .ok (List.zipWith fop l r) := by
  simp only [opTable, List.mem_cons, List.mem_singleton, Prod.mk.injEq,
    List.not_mem_nil, or_false] at h
  rcases h with ⟨rfl, rfl⟩ | ⟨rfl, rfl⟩ | ⟨rfl, rfl⟩ | ⟨rfl, rfl⟩
  · rw [do_operation, if_pos rfl]
  · rw [do_operation, if_neg (by decide), if_pos rfl]
  · rw [do_operation, if_neg (by decide), if_neg (by decide), if_pos rfl]
  · rw [do_operation, if_neg (by decide), if_neg (by decide), if_neg (by decide),
      if_pos rfl]

theorem do_operation_unsupported {op : Str} (h : op ∉ opTable.map Prod.fst)
    (l r : List F64) : do_operation l r op = .error (.unsupportedOperator op) := by
  simp only [opTable, List.map_cons, List.map_nil, List.mem_cons,
    List.not_mem_nil, or_false, not_or] at h
  obtain ⟨h1, h2, h3, h4⟩ := h
  rw [do_operation, if_neg h1, if_neg h2, if_neg h3, if_neg h4]

theorem do_operation_length {l r : List F64} {op : Str} {res : List F64}
    (h : do_operation l r op = .ok res) (hlen : l.length = r.length) :
    res.length = l.length := by
  unfold do_operation at h
  split_ifs at h
  · cases h; simp [List.length_zipWith, hlen]
  · cases h; simp [List.length_zipWith, hlen]
  · cases h; simp [List.length_zipWith, hlen]
  · cases h; simp [List.length_zipWith, hlen]

/-- NaN absorbs on the left for all four operators. -/
theorem fop_nan_left {op : Str} {fop : F64 → F64 → F64}
    (h : (op, fop) ∈ opTable) (y : F64) : fop F64.nan y = F64.nan := by
  simp only [opTable, List.mem_cons, List.mem_singleton, Prod.mk.injEq,
    List.not_mem_nil, or_false] at h
  rcases h with ⟨-, rfl⟩ | ⟨-, rfl⟩ | ⟨-, rfl⟩ | ⟨-, rfl⟩ <;> cases y <;> rfl

/-- NaN absorbs on the right for all four operators. -/
theorem fop_nan_right {op : Str} {fop : F64 → F64 → F64}
    (h : (op, fop) ∈ opTable) (x : F64) : fop x F64.nan = F64.nan := by
  simp only [opTable, List.mem_cons, List.mem_singleton, Prod.mk.injEq,
    List.not_mem_nil, or_false] at h
  rcases h with ⟨-, rfl⟩ | ⟨-, rfl⟩ | ⟨-, rfl⟩ | ⟨-, rfl⟩ <;> cases x <;> rfl

/-! ## The claims -/

/-- C1: Round-trip.  For every well-formed rectangular delimited text — a
preamble of `k` lines, a header line, and data rows each splitting on the
non-empty delimiter `d` into exactly as many fields as the header (lines
being newline-free and not ending in a carriage return) — parsing with
preamble count `k` succeeds and serializing the parsed table emits exactly
the input lines, each terminated by a line break: the serializer's fixed
trailing-newline normalization.  In particular a text that already ends in
a newline round-trips identically, and a text missing only the final
newline parses to the same table (so round-trips modulo that final
newline). -/
theorem C1_roundtrip (d : Str) (preLines dataLines : List Str) (headerLine : Str)
    (_hd : d ≠ [])
    (hnl : ∀ l ∈ preLines ++ headerLine :: dataLines,
      '\n' ∉ l ∧ l.getLast? ≠ some '\r')
    (hw : ∀ l ∈ dataLines,
      (splitOnStr d l).length = (splitOnStr d headerLine).length) :
    ∃ sh, SpreadSheet2D.from_string (linesOut (preLines ++ headerLine :: dataLines))
        d preLines.length = .ok sh ∧
      sh.toString = linesOut (preLines ++ headerLine :: dataLines) ∧
      ((preLines ++ headerLine :: dataLines).getLast? ≠ some [] →
        SpreadSheet2D.from_string (joinSep ['\n'] (preLines ++ headerLine :: dataLines))
          d preLines.length = .ok sh) := by
  have hok : readRows d (splitOnStr d headerLine).length dataLines =
      .ok (dataLines.map (splitOnStr d)) := readRows_ok_of_widths hw
  refine ⟨SpreadSheet2D.mk preLines d (dataLines.map (splitOnStr d))
    (splitOnStr d headerLine), ?_, ?_, ?_⟩
  · rw [from_string_structured d _ preLines dataLines headerLine
      (rustLines_linesOut hnl), hok]
  · exact toString_structured d preLines dataLines headerLine
  · intro hlast
    rw [from_string_structured d _ preLines dataLines headerLine
      (rustLines_joinSep (by simp) hnl hlast), hok]

theorem C1_roundtrip_witness :
    ∃ sh, SpreadSheet2D.from_string
        (linesOut ([strL "# note"] ++ strL "a\tb" :: [strL "1\t2", strL "3\t4"]))
        (strL "\t") [strL "# note"].length = .ok sh ∧
      sh.toString =
        linesOut ([strL "# note"] ++ strL "a\tb" :: [strL "1\t2", strL "3\t4"]) ∧
      (([strL "# note"] ++ strL "a\tb" :: [strL "1\t2", strL "3\t4"]).getLast? ≠
          some [] →
        SpreadSheet2D.from_string
          (joinSep ['\n'] ([strL "# note"] ++ strL "a\tb" :: [strL "1\t2", strL "3\t4"]))
          (strL "\t") [strL "# note"].length = .ok sh) :=
  C1_roundtrip (strL "\t") [strL "# note"] [strL "1\t2", strL "3\t4"] (strL "a\tb")
    (by decide) (by decide) (by decide)

/-- C2: Row-width checking.  For every parse whatsoever, every row of a
table the parser produces has exactly as many cells as there are headers
(first conjunct).  For a structured text, parsing succeeds exactly when
every data row splits into the header's field count `C` (second conjunct),
and when some row does not, the parse fails with a row-width mismatch
reporting `C` as expected and the first offending row's actual field count
— a count differing in either direction is an error (third conjunct; the
Rust panic message prints the difference `C - actual`, which the carried
`expected`/`actual` pair determines). -/
theorem C2_row_width (d : Str) (preLines dataLines : List Str) (headerLine : Str)
    (hnl : ∀ l ∈ preLines ++ headerLine :: dataLines,
      '\n' ∉ l ∧ l.getLast? ≠ some '\r') :
    (∀ (t : Str) (k : Nat) (sh : SpreadSheet2D),
      SpreadSheet2D.from_string t d k = .ok sh →
      ∀ row ∈ sh.data, row.length = sh.column_headers.length)
    ∧ ((∀ l ∈ dataLines,
          (splitOnStr d l).length = (splitOnStr d headerLine).length) ↔
        ∃ sh, SpreadSheet2D.from_string
          (linesOut (preLines ++ headerLine :: dataLines)) d preLines.length =
            .ok sh)
    ∧ (∀ pre l post, dataLines = pre ++ l :: post →
        (∀ l' ∈ pre,
          (splitOnStr d l').length = (splitOnStr d headerLine).length) →
        (splitOnStr d l).length ≠ (splitOnStr d headerLine).length →
        SpreadSheet2D.from_string
          (linesOut (preLines ++ headerLine :: dataLines)) d preLines.length =
          .error (.rowWidthMismatch (splitOnStr d headerLine).length
            (splitOnStr d l).length)) := by
  refine ⟨?_, ⟨?_, ?_⟩, ?_⟩
  · intro t k sh h
    cases hdrop : (rustLines t).drop k with
    | nil =>
      unfold SpreadSheet2D.from_string at h
      rw [hdrop] at h
      cases h
    | cons hl dl =>
      cases hrr : readRows d (splitOnStr d hl).length dl with
      | error e =>
        simp only [SpreadSheet2D.from_string, hdrop, hrr] at h
        cases h
      | ok rs =>
        simp only [SpreadSheet2D.from_string, hdrop, hrr] at h
        obtain ⟨h1, h2⟩ := readRows_ok_iff.mp hrr
        cases h
        intro row hrow
        rw [h1] at hrow
        obtain ⟨lrow, hlrow, rfl⟩ := List.mem_map.mp hrow
        exact h2 lrow hlrow
  · intro hall
    exact ⟨_, by
      rw [from_string_structured d _ preLines dataLines headerLine
        (rustLines_linesOut hnl), readRows_ok_of_widths hall]⟩
  · intro ⟨sh, hsh⟩
    rw [from_string_structured d _ preLines dataLines headerLine
      (rustLines_linesOut hnl)] at hsh
    cases hrr : readRows d (splitOnStr d headerLine).length dataLines with
    | error e => rw [hrr] at hsh; cases hsh
    | ok rs => exact (readRows_ok_iff.mp hrr).2
  · intro pre l post hsplit hpre hl
    rw [from_string_structured d _ preLines dataLines headerLine
      (rustLines_linesOut hnl), hsplit, readRows_first_bad hpre hl]

theorem C2_row_width_witness :
    SpreadSheet2D.from_string
      (linesOut ([] ++ strL "a\tb" :: [strL "1\t2", strL "7"])) (strL "\t") 0 =
      .error (.rowWidthMismatch 2 1) := by
  have h := (C2_row_width (strL "\t") [] [strL "1\t2", strL "7"] (strL "a\tb")
    (by decide)).2.2 [strL "1\t2"] (strL "7") [] rfl (by decide) (by decide)
  rw [show (List.length (splitOnStr (strL "\t") (strL "a\tb"))) = 2 from by decide,
    show (List.length (splitOnStr (strL "\t") (strL "7"))) = 1 from by decide] at h
  exact h

/-- C8: Preamble consumption and the missing-header error.  For every input
text, delimiter and preamble count `k`: parsing fails with
`MalformedInput` exactly when the text has at most `k` lines, so that no
line remains to serve as the header; and whenever parsing succeeds the
preamble is the first `min(k, lines)` lines verbatim (`List.take`), taken
without error even when fewer than `k` lines exist. -/
theorem C8_preamble (text d : Str) (k : Nat) :
    (SpreadSheet2D.from_string text d k = .error .malformedInput ↔
      (rustLines text).length ≤ k)
    ∧ (∀ sh, SpreadSheet2D.from_string text d k = .ok sh →
        sh.preamble = (rustLines text).take k) := by
  have herrshape : ∀ (C : Nat) (ls : List Str) (e : ParseError),
      readRows d C ls = .error e → ∃ a b, e = .rowWidthMismatch a b := by
    intro C ls
    induction ls with
    | nil => intro e he; cases he
    | cons l rest ih =>
      intro e he
      rw [readRows] at he
      by_cases hw : (splitOnStr d l).length = C
      · rw [if_pos hw] at he
        cases hrec : readRows d C rest with
        | ok rs => rw [hrec] at he; cases he
        | error e2 =>
          rw [hrec] at he
          cases he
          exact ih _ hrec
      · rw [if_neg hw] at he
        cases he
        exact ⟨C, (splitOnStr d l).length, rfl⟩
  constructor
  · constructor
    · intro h
      by_contra hlen
      push_neg at hlen
      obtain ⟨hl, dl, hdrop⟩ :
          ∃ hl dl, (rustLines text).drop k = hl :: dl := by
        cases hdrop : (rustLines text).drop k with
        | nil =>
          rw [List.drop_eq_nil_iff] at hdrop
          omega
        | cons hl dl => exact ⟨hl, dl, rfl⟩
      cases hrr : readRows d (splitOnStr d hl).length dl with
      | ok rs =>
        simp only [SpreadSheet2D.from_string, hdrop, hrr] at h
        cases h
      | error e =>
        simp only [SpreadSheet2D.from_string, hdrop, hrr] at h
        obtain ⟨a, b, rfl⟩ := herrshape _ _ _ hrr
        cases h
    · intro h
      have hdrop : (rustLines text).drop k = [] := List.drop_eq_nil_iff.mpr h
      unfold SpreadSheet2D.from_string
      rw [hdrop]
  · intro sh h
    cases hdrop : (rustLines text).drop k with
    | nil =>
      unfold SpreadSheet2D.from_string at h
      rw [hdrop] at h
      cases h
    | cons hl dl =>
      cases hrr : readRows d (splitOnStr d hl).length dl with
      | error e =>
        simp only [SpreadSheet2D.from_string, hdrop, hrr] at h
        cases h
      | ok rs =>
        simp only [SpreadSheet2D.from_string, hdrop, hrr] at h
        cases h
        rfl

theorem C8_preamble_witness :
    SpreadSheet2D.from_string (strL "p\nq") (strL "\t") 5 =
      .error .malformedInput :=
  (C8_preamble (strL "p\nq") (strL "\t") 5).1.mpr (by decide)

/-- C3: Column resolution.  For every header list and pattern: a malformed
pattern fails with `InvalidPattern`; otherwise the matching `(index,
header)` pairs are exactly those whose header the regex search accepts
(partial, unanchored matching), and resolution returns the unique matching
index, fails with `ColumnNotFound` on zero matches, and fails with
`AmbiguousColumn` carrying the full match list on two or more.  The final
conjunct states the search semantics: a full match of any substring of a
header makes that header match. -/
theorem C3_column_index (headers : List Str) (pattern : Str) :
    (reCompile pattern = none →
      column_index headers pattern = .error (.invalidPattern pattern))
    ∧ (∀ re, reCompile pattern = some re →
        (∀ i h, (i, h) ∈ headers.enum.filter (fun p => reSearch re p.2) ↔
          (headers[i]? = some h ∧ reSearch re h = true))
        ∧ (headers.enum.filter (fun p => reSearch re p.2) = [] →
            column_index headers pattern = .error (.columnNotFound pattern))
        ∧ (∀ i h, headers.enum.filter (fun p => reSearch re p.2) = [(i, h)] →
            column_index headers pattern = .ok i)
        ∧ (2 ≤ (headers.enum.filter (fun p => reSearch re p.2)).length →
            column_index headers pattern =
              .error (.ambiguousColumn pattern
                (headers.enum.filter (fun p => reSearch re p.2)))))
    ∧ (∀ re pre mid suf, reCompile pattern = some re → matchFull re mid = true →
        reSearch re (pre ++ mid ++ suf) = true) := by
  refine ⟨?_, ?_, ?_⟩
  · intro h
    simp only [column_index, h]
  · intro re hre
    refine ⟨?_, ?_, ?_, ?_⟩
    · intro i h
      rw [List.mem_filter, List.mk_mem_enum_iff_getElem?]
    · intro hms
      simp only [column_index, hre, hms]
    · intro i h hms
      simp only [column_index, hre, hms]
    · intro hlen
      cases hms : headers.enum.filter (fun p => reSearch re p.2) with
      | nil => rw [hms] at hlen; simp at hlen
      | cons m t =>
        cases t with
        | nil => rw [hms] at hlen; simp at hlen
        | cons m2 t2 =>
          simp only [column_index, hre, hms]
  · intro re pre mid suf _ hfull
    exact reSearch_substring pre mid suf hfull

theorem C3_column_index_witness :
    column_index [strL "alpha", strL "beta"] (strL "bet") = .ok 1 :=
  ((C3_column_index [strL "alpha", strL "beta"] (strL "bet")).2.1
    (RE.seq (RE.char 'b') (RE.seq (RE.char 'e') (RE.seq (RE.char 't') RE.eps)))
    (by decide)).2.2.1 1 (strL "beta") (by decide)

/-- C5: The arithmetic engine.  For equal-length operand vectors and each of
the four supported symbols, `do_operation` returns the elementwise
combination (first conjunct); on the concrete columns `A = [1,2,3]`,
`B = [10,20,30]` it returns `[11,22,33]`, `[-9,-18,-27]`, `[10,40,90]` and
`[0.1,0.1,0.1]` respectively; and any other symbol fails with
`UnsupportedOperator` naming it (last conjunct). -/
theorem C5_do_operation :
    (∀ (l r : List F64) (n : Nat), l.length = n → r.length = n →
      ∀ op fop, (op, fop) ∈ opTable →
        ∃ res, do_operation l r op = .ok res ∧ res.length = n ∧
          ∀ i, i < n → res.getD i F64.nan =
            fop (l.getD i F64.nan) (r.getD i F64.nan))
    ∧ (do_operation
        [F64.val (qof 1), F64.val (qof 2), F64.val (qof 3)]
        [F64.val (qof 10), F64.val (qof 20), F64.val (qof 30)] (strL "+") =
        .ok [F64.val (qof 11), F64.val (qof 22), F64.val (qof 33)])
    ∧ (do_operation
        [F64.val (qof 1), F64.val (qof 2), F64.val (qof 3)]
        [F64.val (qof 10), F64.val (qof 20), F64.val (qof 30)] (strL "-") =
        .ok [F64.val (qof (-9)), F64.val (qof (-18)), F64.val (qof (-27))])
    ∧ (do_operation
        [F64.val (qof 1), F64.val (qof 2), F64.val (qof 3)]
        [F64.val (qof 10), F64.val (qof 20), F64.val (qof 30)] (strL "*") =
        .ok [F64.val (qof 10), F64.val (qof 40), F64.val (qof 90)])
    ∧ (do_operation
        [F64.val (qof 1), F64.val (qof 2), F64.val (qof 3)]
        [F64.val (qof 10), F64.val (qof 20), F64.val (qof 30)] (strL "/") =
        .ok [F64.val (qmk 1 10), F64.val (qmk 1 10), F64.val (qmk 1 10)])
    ∧ (∀ (l r : List F64) (op : Str),
        op ∉ [strL "+", strL "-", strL "*", strL "/"] →
        do_operation l r op = .error (.unsupportedOperator op)) := by
  refine ⟨?_, by decide, by decide, by decide, by decide, ?_⟩
  · intro l r n hl hr op fop hmem
    refine ⟨List.zipWith fop l r, do_operation_eq_of_mem hmem l r, ?_, ?_⟩
    · rw [zipWith_length_of_eq fop l r (hl.trans hr.symm), hl]
    · intro i hi
      exact getD_zipWith fop l r i F64.nan F64.nan F64.nan (hl ▸ hi) (hr ▸ hi)
  · intro l r op hop
    refine do_operation_unsupported ?_ l r
    simp only [opTable, List.map_cons, List.map_nil, List.mem_cons,
      List.not_mem_nil, or_false, not_or]
    simp only [List.mem_cons, List.not_mem_nil, or_false, not_or] at hop
    exact ⟨hop.2.2.1, hop.2.2.2, hop.2.1, hop.1⟩

theorem C5_do_operation_witness :
    ∃ res, do_operation [F64.nan] [F64.val (qof 1)] (strL "+") = .ok res ∧
      res.length = 1 ∧
      ∀ i, i < 1 → res.getD i F64.nan =
        fAdd ([F64.nan].getD i F64.nan) ([F64.val (qof 1)].getD i F64.nan) :=
  C5_do_operation.1 [F64.nan] [F64.val (qof 1)] 1 (by decide) (by decide)
    (strL "+") fAdd (by simp [opTable])

/-- C4: Numeric coercion and NaN propagation.  Coercion returns the parsed
floating-point value whenever the cell parses and NaN — never an error —
otherwise; consequently, whenever a column operation succeeds and either
operand's cell in some row fails to parse, that row's appended result cell
is the string `NaN` (third and fourth conjuncts, for the left and the right
operand).  No error is ever raised because of cell contents: whether
`column_op` succeeds depends only on the headers, the patterns and the
operator symbol, never on the data (last conjunct). -/
theorem C4_nan_coercion :
    (∀ cell v, parseF64 cell = some v → to_number cell = v)
    ∧ (∀ cell, parseF64 cell = none → to_number cell = F64.nan)
    ∧ (∀ (sh sh' : SpreadSheet2D) (l op r nm : Str) (idx1 i : Nat),
        op ∈ opTable.map Prod.fst →
        column_index sh.column_headers l = .ok idx1 →
        sh.column_op l op r nm = (.ok (), sh') →
        i < sh.data.length →
        parseF64 ((sh.data.getD i []).getD idx1 []) = none →
        sh'.data.getD i [] = sh.data.getD i [] ++ [strL "NaN"])
    ∧ (∀ (sh sh' : SpreadSheet2D) (l op r nm : Str) (idx2 i : Nat),
        op ∈ opTable.map Prod.fst →
        column_index sh.column_headers r = .ok idx2 →
        sh.column_op l op r nm = (.ok (), sh') →
        i < sh.data.length →
        parseF64 ((sh.data.getD i []).getD idx2 []) = none →
        sh'.data.getD i [] = sh.data.getD i [] ++ [strL "NaN"])
    ∧ (∀ (sh t : SpreadSheet2D) (l op r nm : Str),
        sh.column_headers = t.column_headers →
        (sh.column_op l op r nm).1 = (t.column_op l op r nm).1) := by
  refine ⟨?_, ?_, ?_, ?_, ?_⟩
  · intro cell v h
    unfold to_number
    rw [h]
    rfl
  · intro cell h
    unfold to_number
    rw [h]
    rfl
  · intro sh sh' l op r nm idx1 i hop hidx h hi hcell
    obtain ⟨⟨op', fop⟩, hfopmem, heq⟩ := List.mem_map.mp hop
    simp only at heq
    subst heq
    cases h2 : column_index sh.column_headers r with
    | error e2 => simp only [SpreadSheet2D.column_op, hidx, h2] at h; simp at h
    | ok idx2 =>
      cases h3 : do_operation
          (sh.data.map (fun row => to_number (row.getD idx1 [])))
          (sh.data.map (fun row => to_number (row.getD idx2 []))) op' with
      | error e3 =>
        simp only [SpreadSheet2D.column_op, hidx, h2, h3] at h; simp at h
      | ok new_col =>
        simp only [SpreadSheet2D.column_op, hidx, h2, h3] at h
        rw [Prod.mk.injEq] at h
        obtain ⟨-, h4⟩ := h
        rw [do_operation_eq_of_mem hfopmem] at h3
        cases h3
        subst h4
        have hncl : (List.zipWith fop
            (sh.data.map (fun row => to_number (row.getD idx1 [])))
            (sh.data.map (fun row => to_number (row.getD idx2 [])))).length =
            sh.data.length := by
          simp [List.length_zipWith]
        calc (List.zipWith (fun row cell => row ++ [cell]) sh.data
              ((List.zipWith fop
                (sh.data.map (fun row => to_number (row.getD idx1 [])))
                (sh.data.map (fun row => to_number (row.getD idx2 [])))).map
                  f64ToString)).getD i []
            = sh.data.getD i [] ++
              [((List.zipWith fop
                  (sh.data.map (fun row => to_number (row.getD idx1 [])))
                  (sh.data.map (fun row => to_number (row.getD idx2 [])))).map
                    f64ToString).getD i (f64ToString F64.nan)] :=
              getD_zipWith _ _ _ i [] (f64ToString F64.nan) [] hi
                (by simp [List.length_zipWith, hi])
          _ = sh.data.getD i [] ++
              [f64ToString ((List.zipWith fop
                  (sh.data.map (fun row => to_number (row.getD idx1 [])))
                  (sh.data.map (fun row => to_number (row.getD idx2 [])))).getD i
                    F64.nan)] := by
              rw [getD_map f64ToString _ i F64.nan (by rw [hncl]; exact hi)]
          _ = sh.data.getD i [] ++
              [f64ToString (fop
                ((sh.data.map (fun row => to_number (row.getD idx1 []))).getD i
                  (to_number (List.getD [] idx1 [])))
                ((sh.data.map (fun row => to_number (row.getD idx2 []))).getD i
                  (to_number (List.getD [] idx2 []))))] := by
              rw [getD_zipWith fop _ _ i (to_number (List.getD [] idx1 []))
                (to_number (List.getD [] idx2 [])) F64.nan (by simp [hi])
                (by simp [hi])]
          _ = sh.data.getD i [] ++
              [f64ToString (fop
                (to_number ((sh.data.getD i []).getD idx1 []))
                (to_number ((sh.data.getD i []).getD idx2 [])))] := by
              rw [getD_map (fun row => to_number (row.getD idx1 [])) sh.data i [] hi,
                getD_map (fun row => to_number (row.getD idx2 [])) sh.data i [] hi]
          _ = sh.data.getD i [] ++ [strL "NaN"] := by
              have hnan : to_number ((sh.data.getD i []).getD idx1 []) = F64.nan := by
                unfold to_number
                rw [hcell]
                rfl
              rw [hnan, fop_nan_left hfopmem]
              rfl
  · intro sh sh' l op r nm idx2 i hop hidx2 h hi hcell
    obtain ⟨⟨op', fop⟩, hfopmem, heq⟩ := List.mem_map.mp hop
    simp only at heq
    subst heq
    cases h1 : column_index sh.column_headers l with
    | error e1 => simp only [SpreadSheet2D.column_op, h1] at h; simp at h
    | ok idx1 =>
      cases h3 : do_operation
          (sh.data.map (fun row => to_number (row.getD idx1 [])))
          (sh.data.map (fun row => to_number (row.getD idx2 []))) op' with
      | error e3 =>
        simp only [SpreadSheet2D.column_op, h1, hidx2, h3] at h; simp at h
      | ok new_col =>
        simp only [SpreadSheet2D.column_op, h1, hidx2, h3] at h
        rw [Prod.mk.injEq] at h
        obtain ⟨-, h4⟩ := h
        rw [do_operation_eq_of_mem hfopmem] at h3
        cases h3
        subst h4
        have hncl : (List.zipWith fop
            (sh.data.map (fun row => to_number (row.getD idx1 [])))
            (sh.data.map (fun row => to_number (row.getD idx2 [])))).length =
            sh.data.length := by
          simp [List.length_zipWith]
        calc (List.zipWith (fun row cell => row ++ [cell]) sh.data
              ((List.zipWith fop
                (sh.data.map (fun row => to_number (row.getD idx1 [])))
                (sh.data.map (fun row => to_number (row.getD idx2 [])))).map
                  f64ToString)).getD i []
            = sh.data.getD i [] ++
              [((List.zipWith fop
                  (sh.data.map (fun row => to_number (row.getD idx1 [])))
                  (sh.data.map (fun row => to_number (row.getD idx2 [])))).map
                    f64ToString).getD i (f64ToString F64.nan)] :=
              getD_zipWith _ _ _ i [] (f64ToString F64.nan) [] hi
                (by simp [List.length_zipWith, hi])
          _ = sh.data.getD i [] ++
              [f64ToString ((List.zipWith fop
                  (sh.data.map (fun row => to_number (row.getD idx1 [])))
                  (sh.data.map (fun row => to_number (row.getD idx2 [])))).getD i
                    F64.nan)] := by
              rw [getD_map f64ToString _ i F64.nan (by rw [hncl]; exact hi)]
          _ = sh.data.getD i [] ++
              [f64ToString (fop
                ((sh.data.map (fun row => to_number (row.getD idx1 []))).getD i
                  (to_number (List.getD [] idx1 [])))
                ((sh.data.map (fun row => to_number (row.getD idx2 []))).getD i
                  (to_number (List.getD [] idx2 []))))] := by
              rw [getD_zipWith fop _ _ i (to_number (List.getD [] idx1 []))
                (to_number (List.getD [] idx2 [])) F64.nan (by simp [hi])
                (by simp [hi])]
          _ = sh.data.getD i [] ++
              [f64ToString (fop
                (to_number ((sh.data.getD i []).getD idx1 []))
                (to_number ((sh.data.getD i []).getD idx2 [])))] := by
              rw [getD_map (fun row => to_number (row.getD idx1 [])) sh.data i [] hi,
                getD_map (fun row => to_number (row.getD idx2 [])) sh.data i [] hi]
          _ = sh.data.getD i [] ++ [strL "NaN"] := by
              have hnan : to_number ((sh.data.getD i []).getD idx2 []) = F64.nan := by
                unfold to_number
                rw [hcell]
                rfl
              rw [hnan, fop_nan_right hfopmem]
              rfl
  · intro sh t l op r nm hh
    cases c1 : column_index t.column_headers l with
    | error e => simp [SpreadSheet2D.column_op, hh, c1]
    | ok idx1 =>
      cases c2 : column_index t.column_headers r with
      | error e => simp [SpreadSheet2D.column_op, hh, c1, c2]
      | ok idx2 =>
        by_cases hop : op ∈ opTable.map Prod.fst
        · obtain ⟨⟨op', fop⟩, hm, heq⟩ := List.mem_map.mp hop
          simp only at heq
          subst heq
          simp [SpreadSheet2D.column_op, hh, c1, c2, do_operation_eq_of_mem hm]
        · simp [SpreadSheet2D.column_op, hh, c1, c2, do_operation_unsupported hop]

def wTable : SpreadSheet2D :=
  SpreadSheet2D.mk [] (strL "\t") [[strL "abc", strL "2"]] [strL "a", strL "b"]

theorem C4_nan_coercion_witness :
    ((wTable.column_op (strL "a") (strL "+") (strL "b") (strL "nc")).2).data.getD 0 [] =
      wTable.data.getD 0 [] ++ [strL "NaN"] :=
  C4_nan_coercion.2.2.1 wTable ((wTable.column_op (strL "a") (strL "+") (strL "b")
      (strL "nc")).2) (strL "a") (strL "+") (strL "b") (strL "nc") 0 0
    (by decide) (by decide) (by decide) (by decide) (by decide)

/-- C7: Frame effect of a successful column append.  The preamble and the
delimiter are unchanged, the headers are the original ones with the result
name appended last, the row count is unchanged, and each row is its
original self with exactly one cell appended: the stringified elementwise
result computed for that row from the resolved operand columns. -/
theorem C7_frame (sh sh' : SpreadSheet2D) (l op r nm : Str)
    (h : sh.column_op l op r nm = (.ok (), sh')) :
    sh'.preamble = sh.preamble ∧
    sh'.col_delimeter = sh.col_delimeter ∧
    sh'.column_headers = sh.column_headers ++ [nm] ∧
    sh'.data.length = sh.data.length ∧
    ∃ idx1 idx2 vals,
      column_index sh.column_headers l = .ok idx1 ∧
      column_index sh.column_headers r = .ok idx2 ∧
      do_operation (sh.data.map (fun row => to_number (row.getD idx1 [])))
        (sh.data.map (fun row => to_number (row.getD idx2 []))) op = .ok vals ∧
      vals.length = sh.data.length ∧
      sh'.data = List.zipWith (fun row v => row ++ [f64ToString v]) sh.data vals ∧
      ∀ i, i < sh.data.length →
        sh'.data.getD i [] =
          sh.data.getD i [] ++ [f64ToString (vals.getD i F64.nan)] := by
  cases h1 : column_index sh.column_headers l with
  | error e1 => simp only [SpreadSheet2D.column_op, h1] at h; simp at h
  | ok idx1 =>
    cases h2 : column_index sh.column_headers r with
    | error e2 => simp only [SpreadSheet2D.column_op, h1, h2] at h; simp at h
    | ok idx2 =>
      cases h3 : do_operation
          (sh.data.map (fun row => to_number (row.getD idx1 [])))
          (sh.data.map (fun row => to_number (row.getD idx2 []))) op with
      | error e3 =>
        simp only [SpreadSheet2D.column_op, h1, h2, h3] at h; simp at h
      | ok new_col =>
        simp only [SpreadSheet2D.column_op, h1, h2, h3] at h
        rw [Prod.mk.injEq] at h
        obtain ⟨-, h4⟩ := h
        subst h4
        have hlen : new_col.length = sh.data.length := by
          rw [do_operation_length h3 (by simp)]
          simp
        refine ⟨rfl, rfl, rfl, by simp [List.length_zipWith, hlen], idx1, idx2,
          new_col, rfl, rfl, h3, hlen, List.zipWith_map_right sh.data new_col
            f64ToString (fun row cell => row ++ [cell]), ?_⟩
        intro i hi
        calc (List.zipWith (fun row cell => row ++ [cell]) sh.data
              (new_col.map f64ToString)).getD i []
            = sh.data.getD i [] ++
              [(new_col.map f64ToString).getD i (f64ToString F64.nan)] :=
              getD_zipWith _ _ _ i [] (f64ToString F64.nan) [] hi
                (by simp [hlen, hi])
          _ = sh.data.getD i [] ++ [f64ToString (new_col.getD i F64.nan)] := by
              rw [getD_map f64ToString new_col i F64.nan (by rw [hlen]; exact hi)]

theorem C7_frame_witness :
    ((wTable.column_op (strL "a") (strL "+") (strL "b") (strL "s2")).2).preamble =
        wTable.preamble ∧
      ((wTable.column_op (strL "a") (strL "+") (strL "b") (strL "s2")).2).col_delimeter =
        wTable.col_delimeter ∧
      ((wTable.column_op (strL "a") (strL "+") (strL "b") (strL "s2")).2).column_headers =
        wTable.column_headers ++ [strL "s2"] ∧
      ((wTable.column_op (strL "a") (strL "+") (strL "b") (strL "s2")).2).data.length =
        wTable.data.length ∧
      ∃ idx1 idx2 vals,
        column_index wTable.column_headers (strL "a") = .ok idx1 ∧
        column_index wTable.column_headers (strL "b") = .ok idx2 ∧
        do_operation (wTable.data.map (fun row => to_number (row.getD idx1 [])))
          (wTable.data.map (fun row => to_number (row.getD idx2 [])))
          (strL "+") = .ok vals ∧
        vals.length = wTable.data.length ∧
        ((wTable.column_op (strL "a") (strL "+") (strL "b") (strL "s2")).2).data =
          List.zipWith (fun row v => row ++ [f64ToString v]) wTable.data vals ∧
        ∀ i, i < wTable.data.length →
          ((wTable.column_op (strL "a") (strL "+") (strL "b") (strL "s2")).2).data.getD
              i [] =
            wTable.data.getD i [] ++ [f64ToString (vals.getD i F64.nan)] :=
  C7_frame wTable ((wTable.column_op (strL "a") (strL "+") (strL "b") (strL "s2")).2)
    (strL "a") (strL "+") (strL "b") (strL "s2") (by decide)

/-- C9: Atomicity of `column_op` on error.  Every fallible step — resolving
either operand pattern (invalid regex, no match, ambiguous match) and
validating the operator — precedes the first mutation, so whenever the
operation returns an error the table is left completely unchanged. -/
theorem C9_atomicity (sh : SpreadSheet2D) (l op r nm : Str) (e : CalcError)
    (h : (sh.column_op l op r nm).1 = .error e) :
    (sh.column_op l op r nm).2 = sh := by
  cases h1 : column_index sh.column_headers l with
  | error e1 => simp only [SpreadSheet2D.column_op, h1]
  | ok idx1 =>
    cases h2 : column_index sh.column_headers r with
    | error e2 => simp only [SpreadSheet2D.column_op, h1, h2]
    | ok idx2 =>
      cases h3 : do_operation
          (sh.data.map (fun row => to_number (row.getD idx1 [])))
          (sh.data.map (fun row => to_number (row.getD idx2 []))) op with
      | error e3 => simp only [SpreadSheet2D.column_op, h1, h2, h3]
      | ok new_col =>
        exfalso
        simp only [SpreadSheet2D.column_op, h1, h2, h3] at h
        simp at h

theorem C9_atomicity_witness :
    (wTable.column_op (strL "a") (strL "%") (strL "b") (strL "z")).2 = wTable :=
  C9_atomicity wTable (strL "a") (strL "%") (strL "b") (strL "z")
    (.unsupportedOperator (strL "%")) (by decide)

/-- C10: The same column may serve as both operands.  If the pattern
resolves to a unique column, then using it as both the left and the right
selector succeeds for every supported operator, appending the result name
as a new header and, per row, the stringified result of applying the
operator to that row's cell value with itself (so `*` squares each
entry). -/
theorem C10_same_operand (sh : SpreadSheet2D) (pat nm : Str) (idx : Nat)
    (h : column_index sh.column_headers pat = .ok idx) :
    (∀ op, op ∈ opTable.map Prod.fst →
      (sh.column_op pat op pat nm).1 = .ok ())
    ∧ ∀ op fop, (op, fop) ∈ opTable →
        (sh.column_op pat op pat nm).2.data =
          sh.data.map (fun row => row ++
            [f64ToString (fop (to_number (row.getD idx []))
              (to_number (row.getD idx [])))]) ∧
        (sh.column_op pat op pat nm).2.column_headers =
          sh.column_headers ++ [nm] := by
  constructor
  · intro op hop
    obtain ⟨⟨op', fop⟩, hfopmem, heq⟩ := List.mem_map.mp hop
    simp only at heq
    subst heq
    simp [SpreadSheet2D.column_op, h, do_operation_eq_of_mem hfopmem]
  · intro op fop hmem
    refine ⟨?_, by simp [SpreadSheet2D.column_op, h, do_operation_eq_of_mem hmem]⟩
    simp only [SpreadSheet2D.column_op, h, do_operation_eq_of_mem hmem]
    rw [List.zipWith_same fop, List.map_map, List.map_map,
      List.zipWith_map_right, List.zipWith_same]
    simp [Function.comp]

def wTableNum : SpreadSheet2D :=
  SpreadSheet2D.mk [] (strL "\t") [[strL "3"]] [strL "v"]

theorem C10_same_operand_witness :
    (wTableNum.column_op (strL "v") (strL "*") (strL "v") (strL "sq")).2.data =
      [[strL "3", strL "9"]] := by
  have h := (C10_same_operand wTableNum (strL "v") (strL "sq") 0 (by decide)).2
    (strL "*") fMul (by simp [opTable])
  rw [h.1]
  decide

/-- C6: End-to-end scenario.  Parsing `"x\ty\n1\t2\n3\t4\n"` with tab
delimiter and no preamble, applying the single operation
`{left: x, op: +, right: y, result: sum}`, and serializing yields exactly
`"x\ty\tsum\n1\t2\t3\n3\t4\t7\n"`: the operation succeeds and the
integer-valued float results stringify without a fractional part. -/
theorem C6_end_to_end :
    (SpreadSheet2D.from_string (strL "x\ty\n1\t2\n3\t4\n") (strL "\t") 0).map
      (fun sh =>
        ((sh.column_op (strL "x") (strL "+") (strL "y") (strL "sum")).1,
          (sh.column_op (strL "x") (strL "+") (strL "y") (strL "sum")).2.toString)) =
    .ok (.ok (), strL "x\ty\tsum\n1\t2\t3\n3\t4\t7\n") := by decide

end SheetCalc
